import Mathlib

/-!
# Verification of the godx sector storage engine core

Shallow embedding of the godx storage engine components described in the
specification, together with proofs of the claimed properties.

Embedded from the repository sources:
* `storage/storageclient/contractset/merkleroot.go` — the incremental
  Merkle root cache (`merkleRoots`, `cachedSubTree`, `push`,
  `appendRootMemory`, `newMerkleRootPreview`);
* `storagemanager` (`part_009`, `part_010`) — `storageManager.Start`'s
  WAL recovery loop, `DeleteFolder`, and the `folderManager`
  (`addFolder`, `selectFolderToAdd`, `selectFolderToAddWithRetry`,
  `validateShrink`).

Parts of the repository referenced by that code but absent from the
source tree (the `crypto/merkle` package, the `storageFolder` struct,
`shrinkFolder`, the write-ahead-log library) are modelled from the
specification; each such definition carries a doc comment starting with
`Modelled from the spec:`.
-/

namespace Godx

/-! ## Constants (from the contractset package and `part_008`) -/

/-- Modelled from the spec: the cached-subtree height constant of the
contractset package (`merkleRootsCacheHeight`); its definition is not
under the source tree.  The spec only requires the per-cache count to be
a fixed power of two, so the concrete value is irrelevant to the
theorems below. -/
def merkleRootsCacheHeight : Nat := 7

/-- Modelled from the spec: height of the Merkle tree of one data sector
(`sectorHeight` of the contractset package, not under the source tree).
It only enters the bookkeeping as an additive offset that cancels. -/
def sectorHeight : Nat := 16

/-- Modelled from the spec: the number of merkle roots covered by one
cached subtree (`merkleRootsPerCache`), "a power-of-two count, call it
K". -/
def merkleRootsPerCache : Nat := 2 ^ merkleRootsCacheHeight

/-- `targetNormal` from `part_008`: normal execution of an update. -/
def targetNormal : Nat := 0

/-- `targetRecoverCommitted` from `part_008`: the state of recovering a
committed transaction. -/
def targetRecoverCommitted : Nat := 1

/-- `targetRecoverUncommitted` from `part_008`: the state of recovering
an uncommitted transaction. -/
def targetRecoverUncommitted : Nat := 2

/-- `folderAvailable` from `part_008`. -/
def folderAvailable : Nat := 0

/-- `folderUnavailable` from `part_008`. -/
def folderUnavailable : Nat := 1

/-- `maxSectorsPerFolder` from `part_008`. -/
def maxSectorsPerFolder : Nat := 2 ^ 32

/-- `minSectorsPerFolder` from `part_008`. -/
def minSectorsPerFolder : Nat := 2 ^ 3

/-- `maxNumFolders` from `part_008`. -/
def maxNumFolders : Nat := 2 ^ 16

/-! ## The Merkle combination (crypto/merkle package)

The `crypto/merkle` package is not under the source tree.  It is
modelled from the spec: "a standard binary Merkle combination" in
"leaf-index order" over an ordered sequence of hashes, where an
append-only tree is maintained as a stack of perfect subtrees (one per
set bit of the leaf count) and two adjacent subtrees of equal height are
joined into one; `Root` folds the remaining subtree sums together in
leaf-index order.  Everything is parametrised by the node-combination
function `join` (the two-child hash), so the theorems hold for every
choice of hash function.

Heights are measured relative to one pushed sector root: a pushed root
(`CachedTree.Push`) is a leaf at relative height `0`, a cached subtree
(`CachedTree.PushSubTree(height, sum)`) sits at relative height
`height - sectorHeight`. -/

section Merkle

variable {α : Type} (join : α → α → α)

/-- Insert a perfect subtree of height `h` with root `s` into the stack
of pending subtrees (most recent = lowest at the head), joining equal
heights as in a binary counter.  When two subtrees of the same height
meet, the older one (`s'`, covering earlier leaves) becomes the left
child. -/
def pushSubAux : Nat → α → List (Nat × α) → List (Nat × α)
  | h, s, [] => [(h, s)]
  | h, s, (h', s') :: rest =>
    if h = h' then pushSubAux (h + 1) (join s' s) rest
    else (h, s) :: (h', s') :: rest

/-- `CachedTree.Push`: append one leaf (a sector root) to the tree. -/
def treePush (stack : List (Nat × α)) (leaf : α) : List (Nat × α) :=
  pushSubAux join 0 leaf stack

/-- `CachedTree.Root`: combine the pending subtree sums, deepest
(earliest leaves) leftmost. -/
def treeRoot [Inhabited α] : List (Nat × α) → α
  | [] => default
  | (_, s) :: rest => rest.foldl (fun acc p => join p.2 acc) s

/-- The tree stack obtained by pushing every leaf of `leaves`
individually into a fresh tree — the *from scratch* computation, using
no cached subtree. -/
def scratchStack (leaves : List α) : List (Nat × α) :=
  leaves.foldl (treePush join) []

/-- The Merkle root of a leaf sequence computed from scratch (every leaf
hashed in, no caching). -/
def scratchRoot [Inhabited α] (leaves : List α) : α :=
  treeRoot join (scratchStack join leaves)

/-- The root of a perfect subtree of `2 ^ c` leaves, written as the
explicit recursive halving — used to state what a cached subtree sum
must be. -/
def blockSum [Inhabited α] : Nat → List α → α
  | 0, l => l.headI
  | c + 1, l => join (blockSum c (l.take (2 ^ c))) (blockSum c (l.drop (2 ^ c)))

end Merkle

/-! ## The merkleRoots structure (merkleroot.go) -/

/-- `cachedSubTree` from merkleroot.go: an immutable subtree covering
`merkleRootsPerCache` leaf roots; stores only its height and root sum. -/
structure CachedSubTree (α : Type) where
  height : Nat
  sum : α
  deriving DecidableEq, Repr

/-- `merkleRoots` from merkleroot.go.  The database handle is modelled
as the list of roots stored so far for the contract
(`db.StoreSingleRoot` appends; the store is modelled as always
succeeding). -/
structure MerkleRoots (α : Type) where
  cachedSubTrees : List (CachedSubTree α) := []
  uncachedRoots : List α := []
  numMerkleRoots : Nat := 0
  db : List α := []
  deriving DecidableEq, Repr

/-- `newMerkleRoots` from merkleroot.go: the fresh, empty structure. -/
def newMerkleRoots {α : Type} : MerkleRoots α := {}

/-- `newCachedSubTree` from merkleroot.go: height is the constant
`merkleRootsCacheHeight + sectorHeight`, the sum is
`merkle.CachedTreeRoot(roots, sectorHeight)` (modelled as the scratch
root of the covered leaf roots).  The `log.Crit` on a wrong-length
input is not modelled: the only call site passes exactly
`merkleRootsPerCache` roots by construction. -/
def newCachedSubTree {α : Type} [Inhabited α] (join : α → α → α)
    (roots : List α) : CachedSubTree α :=
  { height := merkleRootsCacheHeight + sectorHeight
    sum := scratchRoot join roots }

/-- The effect of one `appendRootMemory` step on the memory pair
(`cachedSubTrees`, `uncachedRoots`): append the root to the overflow
list; if it has reached `merkleRootsPerCache`, fold it into a new
cached subtree and clear it. -/
def appendMem {α : Type} [Inhabited α] (join : α → α → α)
    (m : List (CachedSubTree α) × List α) (root : α) :
    List (CachedSubTree α) × List α :=
  let u := m.2 ++ [root]
  if u.length = merkleRootsPerCache then
    (m.1 ++ [newCachedSubTree join u], [])
  else (m.1, u)

/-- One step of `appendRootMemory` from merkleroot.go: update the memory
pair, leaving the other fields alone. -/
def appendRootMemory1 {α : Type} [Inhabited α] (join : α → α → α)
    (mr : MerkleRoots α) (root : α) : MerkleRoots α :=
  let m := appendMem join (mr.cachedSubTrees, mr.uncachedRoots) root
  { mr with cachedSubTrees := m.1, uncachedRoots := m.2 }

/-- `appendRootMemory` from merkleroot.go (variadic form): fold the
single-root step over the list. -/
def appendRootMemory {α : Type} [Inhabited α] (join : α → α → α)
    (mr : MerkleRoots α) (roots : List α) : MerkleRoots α :=
  roots.foldl (appendRootMemory1 join) mr

/-- `push` from merkleroot.go: `none` models the fatal
`log.Crit("the number of uncachedRoots is too big...")` branch;
otherwise the root is stored in the db, appended to memory, and
`numMerkleRoots` incremented.  The db store precedes the memory append
and `appendRootMemory` touches neither `numMerkleRoots` nor the db, so
the three effects are recorded in a single record update. -/
def push {α : Type} [Inhabited α] (join : α → α → α)
    (mr : MerkleRoots α) (root : α) : Option (MerkleRoots α) :=
  if mr.uncachedRoots.length = merkleRootsPerCache then none
  else
    some
      { appendRootMemory1 join mr root with
        numMerkleRoots := mr.numMerkleRoots + 1
        db := mr.db ++ [root] }

/-- Push a whole sequence of roots, stopping at the first fatal
branch. -/
def pushAll {α : Type} [Inhabited α] (join : α → α → α) :
    MerkleRoots α → List α → Option (MerkleRoots α)
  | mr, [] => some mr
  | mr, r :: rs =>
    match push join mr r with
    | none => none
    | some mr' => pushAll join mr' rs

/-- The tree stack holding only the cached subtrees, pushed in order as
`newMerkleRootPreview` does (`ct.PushSubTree(sub.height, sub.sum)`,
i.e. relative height `sub.height - sectorHeight`). -/
def subTreeStackM {α : Type} (join : α → α → α)
    (cs : List (CachedSubTree α)) : List (Nat × α) :=
  cs.foldl
    (fun s sub => pushSubAux join (sub.height - sectorHeight) sub.sum s) []

/-- The cached tree built from a memory pair, as `newMerkleRootPreview`
builds it before pushing the extra root: all cached subtrees first, then
the uncached roots. -/
def buildMem {α : Type} (join : α → α → α)
    (m : List (CachedSubTree α) × List α) : List (Nat × α) :=
  m.2.foldl (treePush join) (subTreeStackM join m.1)

/-- The cached tree built from the incrementally maintained state. -/
def buildCachedTree {α : Type} (join : α → α → α) (mr : MerkleRoots α) :
    List (Nat × α) :=
  buildMem join (mr.cachedSubTrees, mr.uncachedRoots)

/-- `newMerkleRootPreview` from merkleroot.go: build the cached tree
from the state, push the hypothetical new root, return its root.  The
state is returned unchanged alongside the result to make the frame
property explicit (the Go method never assigns to `mr` and never calls
the db). -/
def newMerkleRootPreview {α : Type} [Inhabited α] (join : α → α → α)
    (mr : MerkleRoots α) (newRoot : α) : α × MerkleRoots α :=
  (treeRoot join (treePush join (buildCachedTree join mr) newRoot), mr)

/-- Modelled from the spec: `root()` — "the current committed root over
all appended leaves", computed from the incrementally maintained state
(cached subtrees plus overflow list) exactly as the preview does but
without an extra root. -/
def rootFromState {α : Type} [Inhabited α] (join : α → α → α)
    (mr : MerkleRoots α) : α :=
  treeRoot join (buildCachedTree join mr)

/-- `len` from merkleroot.go. -/
def MerkleRoots.len {α : Type} (mr : MerkleRoots α) : Nat :=
  mr.numMerkleRoots

/-! ## The folder manager (part_010) and storage folders

The `storageFolder` struct itself is not under the source tree (only its
uses in `part_009`/`part_010` are). -/

/-- Modelled from the spec: the `storageFolder` struct (§3 *Folder*,
*Free-slot index*).  `usage` is the per-slot occupancy bitmap backing
the free-slot index; the capacity `numSectors` is its length and the
occupancy `storedSectors` its number of set entries, so the invariant
`occupied ≤ capacity` is structural.  `status` is
`folderAvailable`/`folderUnavailable`; `lockedByOther` captures whether
a concurrent caller currently holds the folder lock, i.e. whether
`sf.lock.TryLock()` fails. -/
structure StorageFolder where
  id : Nat := 0
  path : String := ""
  usage : List Bool := []
  status : Nat := folderAvailable
  lockedByOther : Bool := false
  deriving DecidableEq, Repr, Inhabited

/-- `sf.numSectors`: the folder's total sector capacity. -/
def StorageFolder.numSectors (sf : StorageFolder) : Nat :=
  sf.usage.length

/-- `sf.storedSectors`: the number of occupied sectors. -/
def StorageFolder.storedSectors (sf : StorageFolder) : Nat :=
  sf.usage.count true

/-- Modelled from the spec: `sf.freeSectorIndex()` — the free-slot index
"yielding the next unused slot index"; `none` models the
`errFolderAlreadyFull` error returned when every slot is occupied. -/
def freeSectorIndex (sf : StorageFolder) : Option Nat :=
  sf.usage.findIdx? (fun b => !b)

/-- Modelled from the spec: the `errAllFoldersFullOrUsed` sentinel
("no capacity"); its message text is not under the source tree. -/
def errAllFoldersFullOrUsed : String := "all folders are full or used"

/-- The `folderManager.sfs` map, as an association list from folder path
to folder in (arbitrary but fixed) map iteration order. -/
abbrev FolderMap : Type := List (String × StorageFolder)

/-- Go map assignment `fm.sfs[sf.path] = sf`: replace the entry if the
key is present, otherwise append it. -/
def mapStore (sfs : FolderMap) (k : String) (v : StorageFolder) :
    FolderMap :=
  if sfs.any (fun p => p.1 = k) then
    sfs.map (fun p => if p.1 = k then (k, v) else p)
  else sfs ++ [(k, v)]

/-- `folderManager.addFolder` from part_010, lines 115-124, translated
branch for branch: when the path already exists the named return `err`
is assigned `errors.New("path already exist")`, but the function then
unconditionally stores the folder and ends with `return nil`, which
discards the named error.  The first component is the updated registry,
the second the returned error. -/
def fmAddFolder (sfs : FolderMap) (sf : StorageFolder) :
    FolderMap × Option String :=
  let _err : Option String :=
    if sfs.any (fun p => p.1 = sf.path) then some "path already exist"
    else none
  -- the Go body ends with `return nil`, not `return err`
  (mapStore sfs sf.path sf, none)

/-- `folderManager.selectFolderToAdd` from part_010, lines 129-157: scan
the folders in map iteration order; skip a folder whose try-lock fails,
whose status is unavailable, or which is already full
(`errFolderAlreadyFull`); return the first remaining folder together
with its free slot index; if the scan exhausts the map, fail with
`errAllFoldersFullOrUsed`. -/
def selectFolderToAdd : FolderMap → Except String (StorageFolder × Nat)
  | [] => .error errAllFoldersFullOrUsed
  | (_, sf) :: rest =>
    if sf.lockedByOther then selectFolderToAdd rest
    else if sf.status = folderUnavailable then
      -- sf.lock.Unlock(); continue
      selectFolderToAdd rest
    else
      match freeSectorIndex sf with
      | none => selectFolderToAdd rest
      | some idx => .ok (sf, idx)

/-- Loop body of `selectFolderToAddWithRetry`: the Go loop
`for i := 0; i != retryTimes; i++` keeps the named returns across
iterations; after the loop it executes `return nil, 0, err`, so the
returned error is the last scan's error — or the zero value `nil` when
the loop body never ran.  The first component models the returned
`(sf, index)` pair (`none` for `nil, 0`), the second the returned
error. -/
def selectRetryAux (sfs : FolderMap) :
    Nat → Option String → Option (StorageFolder × Nat) × Option String
  | 0, lastErr => (none, lastErr)
  | n + 1, _ =>
    match selectFolderToAdd sfs with
    | .ok r => (some r, none)
    | .error e => selectRetryAux sfs n (some e)

/-- `folderManager.selectFolderToAddWithRetry` from part_010, lines
160-169 (the 100 ms backoff between scans is not modelled). -/
def selectFolderToAddWithRetry (sfs : FolderMap) (retryTimes : Nat) :
    Option (StorageFolder × Nat) × Option String :=
  selectRetryAux sfs retryTimes none

/-! ### validateShrink (part_010, lines 174-187)

The Go arithmetic is on `uint64`; it is modelled on `Nat` with the
wrap-around made explicit. -/

/-- The `uint64` modulus. -/
def u64Mod : Nat := 2 ^ 64

/-- `uint64` addition. -/
def addU64 (a b : Nat) : Nat := (a + b) % u64Mod

/-- `uint64` subtraction (two's complement wrap-around). -/
def subU64 (a b : Nat) : Nat := (a + (u64Mod - b % u64Mod)) % u64Mod

/-- `folderManager.validateShrink` from part_010: sum the free space
`sf.numSectors - sf.storedSectors` of every *other* folder, add the
target size of the shrinking folder, and fail when the total is less
than the shrinking folder's stored-sector count.  A missing
`folderPath` dereferences a nil map entry in Go; the model reads a
default folder there, and the theorems assume the path is registered. -/
def validateShrink (sfs : FolderMap) (folderPath : String)
    (targetNumSector : Nat) : Option String :=
  let freeSectors :=
    sfs.foldl
      (fun acc p =>
        if p.1 = folderPath then acc
        else addU64 acc (subU64 p.2.numSectors p.2.storedSectors))
      0
  let freeSectors := addU64 freeSectors targetNumSector
  if freeSectors < ((sfs.lookup folderPath).getD default).storedSectors then
    some "not enough storage space for shrink"
  else none

/-! ## The storage manager state (part_009) -/

/-- The storage manager state visible to `DeleteFolder`: the in-memory
folder registry, the set of folder records in the metadata database, the
set of folders whose backing data file is currently open, and the set of
folders whose data file exists on disk (each identified by the folder
path).  The database and file-system operations are modelled as always
succeeding. -/
structure SMState where
  folders : FolderMap := ([] : List (String × StorageFolder))
  dbFolders : List String := []
  openFiles : List String := []
  diskFiles : List String := []
  deriving DecidableEq, Inhabited

/-- The slots a shrink to `target` sectors must evacuate: every occupied
slot with index at or above the target capacity. -/
def slotsToEvacuate (sf : StorageFolder) (target : Nat) : List Nat :=
  (List.range sf.usage.length).filter
    (fun i => decide (target ≤ i) && sf.usage.getD i false)

/-- Modelled from the spec: `storageManager.shrinkFolder` (not under the
source tree) — "validate that the remaining folders have enough
aggregate free capacity to absorb any sectors that must be evacuated
when shrinking, then move/evacuate sectors one WAL transaction at a
time, shrink/grow the extent file, and update the registry".  The
validation is the source-embedded `validateShrink`; the evacuated slots
are returned as the second component (the placement of the moved sectors
into other folders is elided — no claim depends on the destinations).
An error leaves the caller's state unchanged. -/
def shrinkFolder (st : SMState) (folderPath : String)
    (targetNumSector : Nat) : Except String (SMState × List Nat) :=
  match st.folders.lookup folderPath with
  | none => .error "path not exist"
  | some sf =>
    match validateShrink st.folders folderPath targetNumSector with
    | some e => .error e
    | none =>
      let moved := slotsToEvacuate sf targetNumSector
      let sf' := { sf with usage := sf.usage.take targetNumSector }
      .ok
        ({ st with
            folders :=
              st.folders.map
                (fun p => if p.1 = folderPath then (folderPath, sf') else p) },
          moved)

/-- `storageManager.DeleteFolder` from part_009, lines 206-247
(`absolutePath` is modelled as the identity — paths are taken already
absolute).  Look the folder up (`getWithoutLock`); when its capacity
`numSectors` is zero return `nil` immediately; otherwise shrink it to
zero sectors (evacuating everything), then delete its record from the
database, remove it from the registry, close its data file, and remove
the file from disk.  The second component of a success is the list of
evacuated slots (ghost output recording the sector moves). -/
def deleteFolder (st : SMState) (folderPath : String) :
    Except String (SMState × List Nat) :=
  match st.folders.lookup folderPath with
  | none => .error "path not exist"
  | some sf =>
    if sf.numSectors = 0 then .ok (st, [])
    else
      match shrinkFolder st folderPath 0 with
      | .error e => .error e
      | .ok (st1, moved) =>
        .ok
          ({ st1 with
              dbFolders := st1.dbFolders.filter (fun q => decide (q ≠ folderPath))
              folders := st1.folders.filter (fun p => decide (p.1 ≠ folderPath))
              openFiles := st1.openFiles.filter (fun q => decide (q ≠ folderPath))
              diskFiles := st1.diskFiles.filter (fun q => decide (q ≠ folderPath)) },
            moved)

/-! ## WAL recovery at startup (part_009, Start)

The write-ahead-log library (`common/writeaheadlog`) and the update
codecs (`decodeFromTransaction`, `update.lockResource`,
`prepareProcessReleaseUpdate`) are not under the source tree. -/

/-- Modelled from the spec: one recovered WAL transaction.  `committed`
is the spec's on-disk committed/uncommitted state of the transaction
(§3 *WAL Transaction*); `decodable` is whether `decodeFromTransaction`
succeeds on it; `lockable` is whether `up.lockResource(sm)` succeeds. -/
structure WalTxn where
  committed : Bool := true
  decodable : Bool := true
  lockable : Bool := true
  deriving DecidableEq, Repr, Inhabited

/-- The recovery loop of `storageManager.Start` from part_009, lines
115-149, for an un-stopped manager whose thread manager accepts new
threads: iterate `i` from `len(txns)-1` down to `0`; if the transaction
cannot be decoded, log and `continue`; if its resource cannot be locked,
log and `continue`; otherwise dispatch
`prepareProcessReleaseUpdate(up, targetRecoverCommitted)`.  The result
is the list of `(transaction index, target)` pairs dispatched, in
dispatch order, wrapped in the function's `error` return (`.ok` models
`return nil`). -/
def startLoop (txns : List WalTxn) : Nat → Except String (List (Nat × Nat))
  | 0 => .ok []
  | i + 1 =>
    if (txns.getD i default).decodable = false then startLoop txns i
    else if (txns.getD i default).lockable = false then startLoop txns i
    else
      match startLoop txns i with
      | .error e => .error e
      | .ok rest => .ok ((i, targetRecoverCommitted) :: rest)

/-- `storageManager.Start`'s recovery pass over the transactions
returned by opening the write-ahead log. -/
def startRecovery (txns : List WalTxn) : Except String (List (Nat × Nat)) :=
  startLoop txns txns.length

/-! ## Lemmas: the incremental Merkle tree -/

section MerkleLemmas

variable {α : Type} (join : α → α → α)

/-- Pushing a subtree strictly below every pending subtree does not
collapse anything. -/
theorem pushSubAux_of_lt {s : List (Nat × α)} {h : Nat} (x : α)
    (hs : ∀ p ∈ s, h < p.1) : pushSubAux join h x s = (h, x) :: s := by
  cases s with
  | nil => rfl
  | cons q rest =>
    obtain ⟨h', s'⟩ := q
    have hne : h ≠ h' := Nat.ne_of_lt (hs (h', s') (List.mem_cons_self _ _))
    simp [pushSubAux, hne]

/-- Pushing a subtree of height at least `c` into a stack whose entries
all have height at least `c` keeps every height at least `c`. -/
theorem pushSubAux_heightGe :
    ∀ (s : List (Nat × α)) (h : Nat) (x : α) {c : Nat},
      (∀ p ∈ s, c ≤ p.1) → c ≤ h →
      ∀ p ∈ pushSubAux join h x s, c ≤ p.1 := by
  intro s
  induction s with
  | nil =>
    intro h x c _ hch p hp
    simp [pushSubAux] at hp
    simp [hp, hch]
  | cons q rest ih =>
    intro h x c hs hch p hp
    obtain ⟨h', s'⟩ := q
    by_cases he : h = h'
    · rw [pushSubAux, if_pos he] at hp
      exact ih (h + 1) (join s' x) (fun p hp => hs p (List.mem_cons_of_mem _ hp))
        (Nat.le_succ_of_le hch) p hp
    · rw [pushSubAux, if_neg he] at hp
      rcases List.mem_cons.mp hp with hp | hp
      · simp [hp, hch]
      · exact hs p hp

/-- Folding the `2 ^ c` leaves of a perfect block into a tree whose
pending subtrees all have height at least `c` is the same as pushing the
block's precomputed subtree sum at height `c`: the caching theorem for
one block. -/
theorem foldl_treePush_block [Inhabited α] :
    ∀ (c : Nat) (block : List α) (s : List (Nat × α)),
      block.length = 2 ^ c → (∀ p ∈ s, c ≤ p.1) →
      block.foldl (treePush join) s =
        pushSubAux join c (blockSum join c block) s := by
  intro c
  induction c with
  | zero =>
    intro block s hlen _
    obtain ⟨x, rfl⟩ := List.length_eq_one.mp (by simpa using hlen)
    simp [treePush, blockSum]
  | succ c ih =>
    intro block s hlen hs
    have hpow : 2 ^ c ≤ 2 ^ (c + 1) :=
      Nat.pow_le_pow_right (by norm_num) (Nat.le_succ c)
    have h1 : (block.take (2 ^ c)).length = 2 ^ c := by
      rw [List.length_take, hlen]
      exact Nat.min_eq_left hpow
    have h2 : (block.drop (2 ^ c)).length = 2 ^ c := by
      rw [List.length_drop, hlen]
      have := Nat.pow_succ 2 c
      omega
    have hb : block.take (2 ^ c) ++ block.drop (2 ^ c) = block :=
      List.take_append_drop _ _
    have hs' : ∀ p ∈ s, c ≤ p.1 := fun p hp => Nat.le_of_succ_le (hs p hp)
    calc block.foldl (treePush join) s
        = (block.take (2 ^ c) ++ block.drop (2 ^ c)).foldl (treePush join) s := by
          rw [hb]
      _ = (block.drop (2 ^ c)).foldl (treePush join)
            ((block.take (2 ^ c)).foldl (treePush join) s) :=
          List.foldl_append _ _ _ _
      _ = (block.drop (2 ^ c)).foldl (treePush join)
            (pushSubAux join c (blockSum join c (block.take (2 ^ c))) s) := by
          rw [ih _ s h1 hs']
      _ = (block.drop (2 ^ c)).foldl (treePush join)
            ((c, blockSum join c (block.take (2 ^ c))) :: s) := by
          rw [pushSubAux_of_lt join _ (fun p hp => Nat.lt_of_succ_le (hs p hp))]
      _ = pushSubAux join c (blockSum join c (block.drop (2 ^ c)))
            ((c, blockSum join c (block.take (2 ^ c))) :: s) := by
          refine ih _ _ h2 ?_
          intro p hp
          rcases List.mem_cons.mp hp with hp | hp
          · simp [hp]
          · exact Nat.le_of_succ_le (hs p hp)
      _ = pushSubAux join (c + 1)
            (join (blockSum join c (block.take (2 ^ c)))
              (blockSum join c (block.drop (2 ^ c)))) s := by
          simp [pushSubAux]
      _ = pushSubAux join (c + 1) (blockSum join (c + 1) block) s := by
          rw [blockSum]

/-- A perfect block pushed from scratch collapses to a single pending
subtree carrying the block sum. -/
theorem scratchStack_block [Inhabited α] {c : Nat} {block : List α}
    (hlen : block.length = 2 ^ c) :
    scratchStack join block = [(c, blockSum join c block)] := by
  rw [scratchStack, foldl_treePush_block join c block [] hlen (by simp)]
  rfl

/-- The from-scratch root of a perfect block is its block sum. -/
theorem scratchRoot_block [Inhabited α] {c : Nat} {block : List α}
    (hlen : block.length = 2 ^ c) :
    scratchRoot join block = blockSum join c block := by
  rw [scratchRoot, scratchStack_block join hlen, treeRoot]
  rfl

end MerkleLemmas

/-! ## Lemmas: the merkleRoots state machine -/

section MerkleRootsLemmas

variable {α : Type} (join : α → α → α)

/-- Appending one cached subtree to the list pushes it onto the pending
stack. -/
theorem subTreeStackM_append (cs : List (CachedSubTree α))
    (sub : CachedSubTree α) :
    subTreeStackM join (cs ++ [sub]) =
      pushSubAux join (sub.height - sectorHeight) sub.sum
        (subTreeStackM join cs) := by
  simp [subTreeStackM, List.foldl_append]

/-- `appendMem` when the overflow list reaches the cache size: fold into
a new cached subtree. -/
theorem appendMem_pos [Inhabited α] (cs : List (CachedSubTree α))
    (u : List α) (x : α) (hc : (u ++ [x]).length = merkleRootsPerCache) :
    appendMem join (cs, u) x =
      (cs ++ [newCachedSubTree join (u ++ [x])], []) := by
  simp [appendMem, hc]

/-- `appendMem` when the overflow list stays below the cache size. -/
theorem appendMem_neg [Inhabited α] (cs : List (CachedSubTree α))
    (u : List α) (x : α) (hc : ¬(u ++ [x]).length = merkleRootsPerCache) :
    appendMem join (cs, u) x = (cs, u ++ [x]) := by
  have hc' : ¬u.length + 1 = merkleRootsPerCache := by simpa using hc
  simp [appendMem, hc']

/-- Every pending subtree of a memory pair reached by `appendMem` keeps
height at least `merkleRootsCacheHeight`. -/
theorem subTreeStackM_heightGe_appendMem [Inhabited α]
    (m : List (CachedSubTree α) × List α) (x : α)
    (hs : ∀ p ∈ subTreeStackM join m.1, merkleRootsCacheHeight ≤ p.1) :
    ∀ p ∈ subTreeStackM join (appendMem join m x).1,
      merkleRootsCacheHeight ≤ p.1 := by
  obtain ⟨cs, u⟩ := m
  by_cases hc : (u ++ [x]).length = merkleRootsPerCache
  · rw [appendMem_pos join cs u x hc]
    intro p hp
    rw [subTreeStackM_append] at hp
    have hh : (newCachedSubTree join (u ++ [x])).height - sectorHeight =
        merkleRootsCacheHeight := by
      simp [newCachedSubTree]
    rw [hh] at hp
    exact pushSubAux_heightGe join _ _ _ hs (le_refl _) p hp
  · rw [appendMem_neg join cs u x hc]
    exact hs

/-- The single-step preview/append agreement at the level of memory
pairs: appending one root to the state and rebuilding the cached tree is
the same as pushing that root into the tree built from the old state. -/
theorem buildMem_appendMem [Inhabited α]
    (m : List (CachedSubTree α) × List α) (x : α)
    (hs : ∀ p ∈ subTreeStackM join m.1, merkleRootsCacheHeight ≤ p.1) :
    buildMem join (appendMem join m x) = treePush join (buildMem join m) x := by
  obtain ⟨cs, u⟩ := m
  by_cases hc : (u ++ [x]).length = merkleRootsPerCache
  · rw [appendMem_pos join cs u x hc]
    have hlen : (u ++ [x]).length = 2 ^ merkleRootsCacheHeight := hc
    have hsum : (newCachedSubTree join (u ++ [x])).sum =
        blockSum join merkleRootsCacheHeight (u ++ [x]) := by
      rw [newCachedSubTree]
      exact scratchRoot_block join hlen
    have hh : (newCachedSubTree join (u ++ [x])).height - sectorHeight =
        merkleRootsCacheHeight := by
      simp [newCachedSubTree]
    calc buildMem join (cs ++ [newCachedSubTree join (u ++ [x])], [])
        = subTreeStackM join (cs ++ [newCachedSubTree join (u ++ [x])]) := by
          simp [buildMem]
      _ = pushSubAux join merkleRootsCacheHeight
            (blockSum join merkleRootsCacheHeight (u ++ [x]))
            (subTreeStackM join cs) := by
          rw [subTreeStackM_append, hh, hsum]
      _ = (u ++ [x]).foldl (treePush join) (subTreeStackM join cs) :=
          (foldl_treePush_block join _ _ _ hlen hs).symm
      _ = treePush join (u.foldl (treePush join) (subTreeStackM join cs)) x := by
          simp [List.foldl_append]
      _ = treePush join (buildMem join (cs, u)) x := by
          simp [buildMem]
  · rw [appendMem_neg join cs u x hc]
    simp [buildMem, List.foldl_append]

/-- Iterated form of `buildMem_appendMem`: appending a whole sequence of
roots to the state rebuilds exactly the tree obtained by pushing the
sequence leaf by leaf. -/
theorem buildMem_foldl_appendMem [Inhabited α] :
    ∀ (l : List α) (m : List (CachedSubTree α) × List α),
      (∀ p ∈ subTreeStackM join m.1, merkleRootsCacheHeight ≤ p.1) →
      buildMem join (l.foldl (appendMem join) m) =
        l.foldl (treePush join) (buildMem join m) := by
  intro l
  induction l with
  | nil => intro m _; rfl
  | cons a l ih =>
    intro m hs
    have h1 := buildMem_appendMem join m a hs
    have h2 := subTreeStackM_heightGe_appendMem join m a hs
    simp only [List.foldl_cons]
    rw [ih _ h2, h1]

/-- The memory pair of `appendRootMemory` is the `appendMem` fold. -/
theorem appendRootMemory_memPair [Inhabited α] :
    ∀ (l : List α) (mr : MerkleRoots α),
      ((appendRootMemory join mr l).cachedSubTrees,
        (appendRootMemory join mr l).uncachedRoots) =
        l.foldl (appendMem join) (mr.cachedSubTrees, mr.uncachedRoots) := by
  intro l
  induction l with
  | nil => intro mr; rfl
  | cons a l ih =>
    intro mr
    simp only [appendRootMemory, List.foldl_cons]
    have : ((appendRootMemory1 join mr a).cachedSubTrees,
        (appendRootMemory1 join mr a).uncachedRoots) =
        appendMem join (mr.cachedSubTrees, mr.uncachedRoots) a := by
      simp [appendRootMemory1]
    rw [← List.foldl_cons]
    simpa [appendRootMemory, this] using ih (appendRootMemory1 join mr a)

/-- One `appendMem` step keeps the overflow list strictly below
`merkleRootsPerCache`. -/
theorem appendMem_uncached_lt [Inhabited α]
    (m : List (CachedSubTree α) × List α) (x : α)
    (hm : m.2.length < merkleRootsPerCache) :
    (appendMem join m x).2.length < merkleRootsPerCache := by
  obtain ⟨cs, u⟩ := m
  by_cases hc : (u ++ [x]).length = merkleRootsPerCache
  · rw [appendMem_pos join cs u x hc]
    show ([] : List α).length < merkleRootsPerCache
    rw [List.length_nil, merkleRootsPerCache]
    norm_num
  · rw [appendMem_neg join cs u x hc]
    have hm' : u.length < merkleRootsPerCache := hm
    simp only [List.length_append, List.length_cons, List.length_nil] at hc ⊢
    omega

/-- One `appendMem` step grows the weighted count
`merkleRootsPerCache * #cached + #overflow` by exactly one. -/
theorem appendMem_count [Inhabited α]
    (m : List (CachedSubTree α) × List α) (x : α) :
    merkleRootsPerCache * (appendMem join m x).1.length +
        (appendMem join m x).2.length =
      merkleRootsPerCache * m.1.length + m.2.length + 1 := by
  obtain ⟨cs, u⟩ := m
  by_cases hc : (u ++ [x]).length = merkleRootsPerCache
  · rw [appendMem_pos join cs u x hc]
    have hu : u.length + 1 = merkleRootsPerCache := by simpa using hc
    simp only [List.length_append, List.length_cons, List.length_nil,
      Nat.zero_add, Nat.add_zero]
    rw [Nat.mul_add, Nat.mul_one]
    omega
  · rw [appendMem_neg join cs u x hc]
    simp only [List.length_append, List.length_cons, List.length_nil]
    omega

/-- Iterated weighted count: pushing `l` leaves grows the count by
`l.length`. -/
theorem foldl_appendMem_count [Inhabited α] :
    ∀ (l : List α) (m : List (CachedSubTree α) × List α),
      merkleRootsPerCache * (l.foldl (appendMem join) m).1.length +
          (l.foldl (appendMem join) m).2.length =
        merkleRootsPerCache * m.1.length + m.2.length + l.length := by
  intro l
  induction l with
  | nil => intro m; rfl
  | cons a l ih =>
    intro m
    simp only [List.foldl_cons, List.length_cons]
    rw [ih (appendMem join m a), appendMem_count join m a]
    omega

/-- `pushAll` from a state whose overflow list is strictly below the
cache size never hits the fatal branch; its memory is the `appendMem`
fold, its count grows by the number of pushed roots, and every pushed
root lands in the db. -/
theorem pushAll_ok [Inhabited α] :
    ∀ (l : List α) (mr : MerkleRoots α),
      mr.uncachedRoots.length < merkleRootsPerCache →
      ∃ mr', pushAll join mr l = some mr' ∧
        (mr'.cachedSubTrees, mr'.uncachedRoots) =
          l.foldl (appendMem join) (mr.cachedSubTrees, mr.uncachedRoots) ∧
        mr'.uncachedRoots.length < merkleRootsPerCache ∧
        mr'.numMerkleRoots = mr.numMerkleRoots + l.length ∧
        mr'.db = mr.db ++ l := by
  intro l
  induction l with
  | nil =>
    intro mr hmr
    exact ⟨mr, rfl, rfl, hmr, rfl, by simp⟩
  | cons a l ih =>
    intro mr hmr
    have hne : ¬ mr.uncachedRoots.length = merkleRootsPerCache :=
      Nat.ne_of_lt hmr
    set s : MerkleRoots α :=
      { appendRootMemory1 join mr a with
        numMerkleRoots := mr.numMerkleRoots + 1
        db := mr.db ++ [a] } with hsdef
    have hmem : (s.cachedSubTrees, s.uncachedRoots) =
        appendMem join (mr.cachedSubTrees, mr.uncachedRoots) a := by
      simp [hsdef, appendRootMemory1]
    have hslt : s.uncachedRoots.length < merkleRootsPerCache := by
      have := appendMem_uncached_lt join (mr.cachedSubTrees, mr.uncachedRoots) a hmr
      have h2 : s.uncachedRoots = (appendMem join (mr.cachedSubTrees, mr.uncachedRoots) a).2 :=
        congrArg Prod.snd hmem
      rw [h2]
      exact this
    obtain ⟨mr', hpush, hpair, hlt, hnum, hdb⟩ := ih s hslt
    refine ⟨mr', ?_, ?_, hlt, ?_, ?_⟩
    · rw [pushAll, push, if_neg hne]
      exact hpush
    · rw [List.foldl_cons, ← hmem]
      exact hpair
    · rw [hnum]
      simp [hsdef]
      omega
    · rw [hdb]
      simp [hsdef]

/-- Folding cached subtrees of the constant height onto a stack of
heights at least `merkleRootsCacheHeight` keeps every height at least
`merkleRootsCacheHeight`. -/
theorem foldl_pushSub_heightGe :
    ∀ (cs : List (CachedSubTree α)) (s : List (Nat × α)),
      (∀ sub ∈ cs, sub.height = merkleRootsCacheHeight + sectorHeight) →
      (∀ p ∈ s, merkleRootsCacheHeight ≤ p.1) →
      ∀ p ∈ cs.foldl
          (fun s sub => pushSubAux join (sub.height - sectorHeight) sub.sum s) s,
        merkleRootsCacheHeight ≤ p.1 := by
  intro cs
  induction cs with
  | nil => intro s _ hs; exact hs
  | cons sub cs ih =>
    intro s hh hs
    simp only [List.foldl_cons]
    refine ih _ (fun q hq => hh q (List.mem_cons_of_mem _ hq)) ?_
    have hsub := hh sub (List.mem_cons_self _ _)
    have hrel : sub.height - sectorHeight = merkleRootsCacheHeight := by
      rw [hsub]
      omega
    rw [hrel]
    exact pushSubAux_heightGe join s _ _ hs (le_refl _)

/-- The cached tree rebuilt from the state reached by appending `l` to a
fresh `merkleRoots` is exactly the from-scratch tree of `l`. -/
theorem buildCachedTree_appendAll [Inhabited α] (l : List α) :
    buildCachedTree join (appendRootMemory join newMerkleRoots l) =
      scratchStack join l := by
  rw [buildCachedTree, appendRootMemory_memPair join l newMerkleRoots]
  have h0 : ∀ p ∈ subTreeStackM join
      ((newMerkleRoots : MerkleRoots α).cachedSubTrees, (newMerkleRoots : MerkleRoots α).uncachedRoots).1,
      merkleRootsCacheHeight ≤ p.1 := by
    intro p hp
    simp [subTreeStackM, newMerkleRoots] at hp
  rw [buildMem_foldl_appendMem join l _ h0]
  rfl

end MerkleRootsLemmas

/-! ## Claim theorems: the Merkle root cache -/

/-- C1: Merkle root cache round-trip.  For every combination function
`join` and every sequence of leaf hashes (including the empty one)
appended in order through `appendRootMemory`, the root produced from the
incrementally maintained state (cached subtrees plus overflow list)
equals the root computed by hashing the full sequence from scratch;
`newMerkleRootPreview h` on the reached state equals the root the cache
reports after `h` is subsequently appended; the same round-trip holds
along the `push` path (which also never hits its fatal branch); and for
*every* state `mr` whose cached subtrees carry the constant height every
constructed `cachedSubTree` carries, the preview equals the root
reported after appending. -/
theorem merkle_root_cache_roundtrip {α : Type} [Inhabited α]
    (join : α → α → α) (leaves : List α) (h : α) (mr : MerkleRoots α)
    (hmr : ∀ sub ∈ mr.cachedSubTrees,
      sub.height = merkleRootsCacheHeight + sectorHeight) :
    rootFromState join (appendRootMemory join newMerkleRoots leaves) =
        scratchRoot join leaves ∧
    (newMerkleRootPreview join (appendRootMemory join newMerkleRoots leaves) h).1 =
        rootFromState join (appendRootMemory join newMerkleRoots (leaves ++ [h])) ∧
    (∃ mr', pushAll join newMerkleRoots leaves = some mr' ∧
      rootFromState join mr' = scratchRoot join leaves) ∧
    (newMerkleRootPreview join mr h).1 =
      rootFromState join (appendRootMemory1 join mr h) := by
  refine ⟨?_, ?_, ?_, ?_⟩
  · rw [rootFromState, buildCachedTree_appendAll]
    rfl
  · rw [newMerkleRootPreview, rootFromState,
      buildCachedTree_appendAll join leaves,
      buildCachedTree_appendAll join (leaves ++ [h])]
    simp [scratchStack, List.foldl_append]
  · have hlt : (newMerkleRoots : MerkleRoots α).uncachedRoots.length <
        merkleRootsPerCache := by
      show 0 < merkleRootsPerCache
      rw [merkleRootsPerCache]
      norm_num
    obtain ⟨mr', hsome, hpair, -, -, -⟩ := pushAll_ok join leaves newMerkleRoots hlt
    refine ⟨mr', hsome, ?_⟩
    have h0 : ∀ p ∈ subTreeStackM join
        ((newMerkleRoots : MerkleRoots α).cachedSubTrees,
          (newMerkleRoots : MerkleRoots α).uncachedRoots).1,
        merkleRootsCacheHeight ≤ p.1 := by
      intro p hp
      simp [subTreeStackM, newMerkleRoots] at hp
    rw [rootFromState, buildCachedTree, hpair,
      buildMem_foldl_appendMem join leaves _ h0]
    rfl
  · have hs : ∀ p ∈ subTreeStackM join mr.cachedSubTrees,
        merkleRootsCacheHeight ≤ p.1 := by
      refine foldl_pushSub_heightGe join mr.cachedSubTrees [] hmr ?_
      intro p hp
      simp at hp
    have hb := buildMem_appendMem join (mr.cachedSubTrees, mr.uncachedRoots) h hs
    have hpair : ((appendRootMemory1 join mr h).cachedSubTrees,
        (appendRootMemory1 join mr h).uncachedRoots) =
        appendMem join (mr.cachedSubTrees, mr.uncachedRoots) h := by
      simp [appendRootMemory1]
    rw [newMerkleRootPreview, rootFromState, buildCachedTree, buildCachedTree,
      hpair, hb]

/-- Witness for C1 at a concrete input: the sequence `[1, 2, 3]` with
`Nat.add` as the combination function, previewed hash `5`, and the fresh
state for the every-state conjunct. -/
theorem merkle_root_cache_roundtrip_witness :
    rootFromState Nat.add (appendRootMemory Nat.add newMerkleRoots [1, 2, 3]) =
        scratchRoot Nat.add [1, 2, 3] ∧
    (newMerkleRootPreview Nat.add
        (appendRootMemory Nat.add newMerkleRoots [1, 2, 3]) 5).1 =
        rootFromState Nat.add
          (appendRootMemory Nat.add newMerkleRoots ([1, 2, 3] ++ [5])) ∧
    (∃ mr', pushAll Nat.add newMerkleRoots [1, 2, 3] = some mr' ∧
      rootFromState Nat.add mr' = scratchRoot Nat.add [1, 2, 3]) ∧
    (newMerkleRootPreview Nat.add (newMerkleRoots : MerkleRoots Nat) 5).1 =
      rootFromState Nat.add (appendRootMemory1 Nat.add newMerkleRoots 5) :=
  merkle_root_cache_roundtrip Nat.add [1, 2, 3] 5 newMerkleRoots
    (by intro sub hsub; simp [newMerkleRoots] at hsub)

/-- C4: invariant of the `merkleRoots` structure along the append path:
starting from a fresh `merkleRoots`, any sequence of `push` calls
succeeds (the fatal `uncachedRoots too big` branch at the top of `push`
is unreachable, modelled by `pushAll` never returning `none`), leaves
the overflow list strictly below `merkleRootsPerCache`, and keeps
`numMerkleRoots = merkleRootsPerCache * #cachedSubTrees +
#uncachedRoots`; moreover a single `appendRootMemory` step from any
state whose overflow list is below the bound keeps it below the
bound. -/
theorem merkleRoots_invariant {α : Type} [Inhabited α] (join : α → α → α)
    (l : List α) (mr : MerkleRoots α) (x : α)
    (hmr : mr.uncachedRoots.length < merkleRootsPerCache) :
    (∃ mr', pushAll join newMerkleRoots l = some mr' ∧
      mr'.uncachedRoots.length < merkleRootsPerCache ∧
      mr'.numMerkleRoots =
        merkleRootsPerCache * mr'.cachedSubTrees.length +
          mr'.uncachedRoots.length) ∧
    (appendRootMemory1 join mr x).uncachedRoots.length <
      merkleRootsPerCache := by
  constructor
  · have hlt : (newMerkleRoots : MerkleRoots α).uncachedRoots.length <
        merkleRootsPerCache := by
      show 0 < merkleRootsPerCache
      rw [merkleRootsPerCache]
      norm_num
    obtain ⟨mr', hsome, hpair, hult, hnum, -⟩ := pushAll_ok join l newMerkleRoots hlt
    refine ⟨mr', hsome, hult, ?_⟩
    have hc := congrArg Prod.fst hpair
    have hu := congrArg Prod.snd hpair
    simp only at hc hu
    have hcount := foldl_appendMem_count join l
      ((newMerkleRoots : MerkleRoots α).cachedSubTrees,
        (newMerkleRoots : MerkleRoots α).uncachedRoots)
    rw [← hc, ← hu] at hcount
    have hz : merkleRootsPerCache *
        ((newMerkleRoots : MerkleRoots α).cachedSubTrees,
          (newMerkleRoots : MerkleRoots α).uncachedRoots).1.length +
        ((newMerkleRoots : MerkleRoots α).cachedSubTrees,
          (newMerkleRoots : MerkleRoots α).uncachedRoots).2.length = 0 := rfl
    have hz0 : (newMerkleRoots : MerkleRoots α).numMerkleRoots = 0 := rfl
    rw [hnum]
    omega
  · have : (appendRootMemory1 join mr x).uncachedRoots =
        (appendMem join (mr.cachedSubTrees, mr.uncachedRoots) x).2 := rfl
    rw [this]
    exact appendMem_uncached_lt join _ x hmr

/-- Witness for C4 at a concrete input: three pushes of `1, 2, 3` with
`Nat.add` as the combination, and one raw `appendRootMemory` step of
`7`, all from the fresh structure. -/
theorem merkleRoots_invariant_witness :
    (∃ mr', pushAll Nat.add newMerkleRoots [1, 2, 3] = some mr' ∧
      mr'.uncachedRoots.length < merkleRootsPerCache ∧
      mr'.numMerkleRoots =
        merkleRootsPerCache * mr'.cachedSubTrees.length +
          mr'.uncachedRoots.length) ∧
    (appendRootMemory1 Nat.add newMerkleRoots 7).uncachedRoots.length <
      merkleRootsPerCache :=
  merkleRoots_invariant Nat.add [1, 2, 3] newMerkleRoots 7 (by decide)

/-! ## Claim theorems: startup WAL recovery -/

/-- The recovery loop dispatches exactly the decodable, lockable
transactions among the first `i`, in descending index order, each with
the committed-recovery target. -/
theorem startLoop_ok (txns : List WalTxn) :
    ∀ i, startLoop txns i =
      .ok ((((List.range i).reverse).filter
          (fun j => (txns.getD j default).decodable &&
            (txns.getD j default).lockable)).map
        (fun j => (j, targetRecoverCommitted))) := by
  intro i
  induction i with
  | zero => rfl
  | succ i ih =>
    have hrange : (List.range (i + 1)).reverse = i :: (List.range i).reverse := by
      rw [List.range_succ, List.reverse_append]
      rfl
    rw [startLoop, hrange, List.filter_cons, ih]
    cases hd : (txns.getD i default).decodable with
    | false => simp
    | true =>
      cases hl : (txns.getD i default).lockable with
      | false => simp
      | true => simp

/-- Pointwise decode/lock flags are determined by the mapped flag
lists. -/
theorem walFlags_getD :
    ∀ (l₁ l₂ : List WalTxn),
      l₁.map (fun t => (t.decodable, t.lockable)) =
        l₂.map (fun t => (t.decodable, t.lockable)) →
      ∀ j, ((l₁.getD j default).decodable, (l₁.getD j default).lockable) =
        ((l₂.getD j default).decodable, (l₂.getD j default).lockable) := by
  intro l₁
  induction l₁ with
  | nil =>
    intro l₂ hsame j
    have : l₂ = [] := by
      cases l₂ with
      | nil => rfl
      | cons t l => simp at hsame
    subst this
    rfl
  | cons t l ih =>
    intro l₂ hsame j
    cases l₂ with
    | nil => simp at hsame
    | cons t' l' =>
      simp only [List.map_cons, List.cons.injEq] at hsame
      cases j with
      | zero => simpa using hsame.1
      | succ j => simpa using ih l' hsame.2 j

/-- The recovery loop reads only the decode/lock flags of the
transactions, never their committed state. -/
theorem startLoop_flags_congr (txns₁ txns₂ : List WalTxn)
    (hsame : txns₁.map (fun t => (t.decodable, t.lockable)) =
      txns₂.map (fun t => (t.decodable, t.lockable))) :
    ∀ i, startLoop txns₁ i = startLoop txns₂ i := by
  intro i
  induction i with
  | zero => rfl
  | succ i ih =>
    have hflag := walFlags_getD txns₁ txns₂ hsame i
    have hd : (txns₁.getD i default).decodable =
        (txns₂.getD i default).decodable :=
      congrArg Prod.fst hflag
    have hl : (txns₁.getD i default).lockable =
        (txns₂.getD i default).lockable :=
      congrArg Prod.snd hflag
    simp only [startLoop, hd, hl, ih]

/-- C2: `Start` traverses the recovered WAL transactions from the most
recent (last index) down to the oldest (index 0) — the dispatched trace
has strictly decreasing transaction indices — and every processed
transaction is handled through the recovery path
(`targetRecoverCommitted`, the revert of an in-doubt update), never
re-applied forward through the normal path (`targetNormal`). -/
theorem start_recovery_reverse_order (txns : List WalTxn) :
    ∃ tr, startRecovery txns = .ok tr ∧
      tr.Pairwise (fun a b => b.1 < a.1) ∧
      ∀ e ∈ tr, e.2 = targetRecoverCommitted ∧ e.2 ≠ targetNormal := by
  refine ⟨_, startLoop_ok txns txns.length, ?_, ?_⟩
  · rw [List.pairwise_map]
    refine List.Pairwise.filter _ ?_
    rw [List.pairwise_reverse]
    exact List.pairwise_lt_range _
  · intro e he
    rw [List.mem_map] at he
    obtain ⟨j, -, rfl⟩ := he
    refine ⟨rfl, ?_⟩
    show targetRecoverCommitted ≠ targetNormal
    decide

/-- C9: a transaction that cannot be decoded is skipped rather than
aborting recovery: `Start` still returns success, the corrupt index is
never dispatched, and every other decodable, lockable transaction is
still dispatched. -/
theorem start_recovery_skips_undecodable (txns : List WalTxn) (i : Nat)
    (_hi : i < txns.length)
    (hbad : (txns.getD i default).decodable = false) :
    ∃ tr, startRecovery txns = .ok tr ∧
      (∀ e ∈ tr, e.1 ≠ i) ∧
      ∀ j, j < txns.length → j ≠ i →
        (txns.getD j default).decodable = true →
        (txns.getD j default).lockable = true →
        (j, targetRecoverCommitted) ∈ tr := by
  refine ⟨_, startLoop_ok txns txns.length, ?_, ?_⟩
  · intro e he
    rw [List.mem_map] at he
    obtain ⟨j, hj, rfl⟩ := he
    rw [List.mem_filter] at hj
    intro hji
    have hji' : j = i := hji
    rw [hji', hbad] at hj
    simp at hj
  · intro j hj hne hdec hlock
    rw [List.mem_map]
    refine ⟨j, ?_, rfl⟩
    rw [List.mem_filter, List.mem_reverse, List.mem_range]
    exact ⟨hj, by rw [hdec, hlock]; rfl⟩

/-- Witness for C9: three recovered transactions with the middle one
undecodable; recovery succeeds, skips index 1, and still dispatches
indices 2 and 0. -/
theorem start_recovery_skips_undecodable_witness :
    ∃ tr, startRecovery
        [{ : WalTxn }, { decodable := false : WalTxn }, { : WalTxn }] = .ok tr ∧
      (∀ e ∈ tr, e.1 ≠ 1) ∧
      ∀ j, j < ([{ : WalTxn }, { decodable := false : WalTxn },
          { : WalTxn }] : List WalTxn).length → j ≠ 1 →
        (([{ : WalTxn }, { decodable := false : WalTxn },
            { : WalTxn }] : List WalTxn).getD j default).decodable = true →
        (([{ : WalTxn }, { decodable := false : WalTxn },
            { : WalTxn }] : List WalTxn).getD j default).lockable = true →
        (j, targetRecoverCommitted) ∈ tr :=
  start_recovery_skips_undecodable
    [{ : WalTxn }, { decodable := false : WalTxn }, { : WalTxn }] 1
    (by decide) (by decide)

/-- Counterexample to C3 as stated: a recovered transaction whose
on-disk state is *uncommitted* is nevertheless dispatched with the
committed-recovery target — `Start` hard-codes `targetRecoverCommitted`
for every recovered transaction, so the uncommitted case's logic
(`targetRecoverUncommitted`) is not selected for it. -/
theorem start_recovery_uncommitted_gets_committed_target :
    startRecovery [{ committed := false : WalTxn }] =
        .ok [(0, targetRecoverCommitted)] ∧
    targetRecoverCommitted ≠ targetRecoverUncommitted := by
  exact ⟨rfl, by decide⟩

/-- C3 (amended): the startup recovery pass does not dispatch on the
transaction's committed state at all — its behaviour depends only on the
decode/lock outcomes — and every dispatched transaction is processed
with the committed-recovery target, never with
`targetRecoverUncommitted`. -/
theorem start_recovery_ignores_committed_state (txns₁ txns₂ : List WalTxn)
    (hsame : txns₁.map (fun t => (t.decodable, t.lockable)) =
      txns₂.map (fun t => (t.decodable, t.lockable))) :
    startRecovery txns₁ = startRecovery txns₂ ∧
    ∃ tr, startRecovery txns₁ = .ok tr ∧
      ∀ e ∈ tr, e.2 = targetRecoverCommitted ∧
        e.2 ≠ targetRecoverUncommitted := by
  constructor
  · have hlen : txns₁.length = txns₂.length := by
      have := congrArg List.length hsame
      simpa using this
    rw [startRecovery, startRecovery, hlen]
    exact startLoop_flags_congr txns₁ txns₂ hsame txns₂.length
  · refine ⟨_, startLoop_ok txns₁ txns₁.length, ?_⟩
    intro e he
    rw [List.mem_map] at he
    obtain ⟨j, -, rfl⟩ := he
    refine ⟨rfl, ?_⟩
    show targetRecoverCommitted ≠ targetRecoverUncommitted
    decide

/-- Witness for C3 (amended): two one-transaction logs that differ only
in the committed flag produce identical recovery behaviour, with the
dispatch carrying the committed-recovery target. -/
theorem start_recovery_ignores_committed_state_witness :
    startRecovery [{ : WalTxn }] =
        startRecovery [{ committed := false : WalTxn }] ∧
    ∃ tr, startRecovery [{ : WalTxn }] = .ok tr ∧
      ∀ e ∈ tr, e.2 = targetRecoverCommitted ∧
        e.2 ≠ targetRecoverUncommitted :=
  start_recovery_ignores_committed_state
    [{ : WalTxn }] [{ committed := false : WalTxn }] (by decide)

/-! ## Claim theorems: the folder manager -/

/-- C5 (code bug, evaluated at the failing input): calling
`folderManager.addFolder` with a folder whose path `"/a"` is already
registered returns a `nil` error — the body assigns the named error but
ends with `return nil` — and *replaces* the registered entry with the
new folder, which differs from the old one. -/
theorem fmAddFolder_duplicate_overwrites :
    (fmAddFolder [("/a", { path := "/a", usage := [false] })]
        { path := "/a", usage := [true] }).2 = none ∧
    (fmAddFolder [("/a", { path := "/a", usage := [false] })]
        { path := "/a", usage := [true] }).1 =
      [("/a", { path := "/a", usage := [true] })] ∧
    ({ path := "/a", usage := [true] } : StorageFolder) ≠
      { path := "/a", usage := [false] } := by
  refine ⟨rfl, by decide, by decide⟩

/-- Counterexample to C6 as stated: with `retryTimes = 0` (and an empty
registry, so every scan would fail), `selectFolderToAddWithRetry`
returns the zero-valued `nil` error, not `errAllFoldersFullOrUsed`: the
loop body never runs and the function ends with `return nil, 0, err`
where `err` still holds its zero value. -/
theorem selectFolderToAddWithRetry_zero_no_error :
    selectFolderToAddWithRetry [] 0 = (none, none) ∧
    (none : Option String) ≠ some errAllFoldersFullOrUsed := by
  refine ⟨rfl, by decide⟩

/-- A scan over folders that are all locked, unavailable, or full
reaches the end and reports `errAllFoldersFullOrUsed`. -/
theorem selectFolderToAdd_all_skipped :
    ∀ sfs : FolderMap,
      (∀ p ∈ sfs, p.2.lockedByOther = true ∨ p.2.status = folderUnavailable ∨
        freeSectorIndex p.2 = none) →
      selectFolderToAdd sfs = .error errAllFoldersFullOrUsed := by
  intro sfs
  induction sfs with
  | nil => intro _; rfl
  | cons q rest ih =>
    intro hall
    have hq := hall q (List.mem_cons_self _ _)
    have hrest := ih fun p hp => hall p (List.mem_cons_of_mem _ hp)
    obtain ⟨k, sf⟩ := q
    have hq' : sf.lockedByOther = true ∨ sf.status = folderUnavailable ∨
        freeSectorIndex sf = none := hq
    rcases hq' with h1 | h2 | h3
    · simp [selectFolderToAdd, h1, hrest]
    · cases hlk : sf.lockedByOther
      · simp [selectFolderToAdd, hlk, h2, hrest]
      · simp [selectFolderToAdd, hlk, hrest]
    · cases hlk : sf.lockedByOther
      · by_cases hst : sf.status = folderUnavailable
        · simp [selectFolderToAdd, hlk, hst, hrest]
        · simp [selectFolderToAdd, hlk, hst, h3, hrest]
      · simp [selectFolderToAdd, hlk, hrest]

/-- A failing scan repeated `n + 1` times always ends with the last
scan's error. -/
theorem selectRetryAux_all_skipped (sfs : FolderMap)
    (hscan : selectFolderToAdd sfs = .error errAllFoldersFullOrUsed) :
    ∀ (n : Nat) (lastErr : Option String),
      selectRetryAux sfs (n + 1) lastErr =
        (none, some errAllFoldersFullOrUsed) := by
  intro n
  induction n with
  | zero =>
    intro lastErr
    rw [selectRetryAux, hscan]
    rfl
  | succ n ih =>
    intro lastErr
    rw [selectRetryAux, hscan]
    exact ih (some errAllFoldersFullOrUsed)

/-- C6 (amended): each scan of `selectFolderToAdd` skips every folder
whose try-lock fails, whose status is unavailable, or which is already
full, and returns the first scanned folder that qualifies together with
its free slot index; when no folder qualifies the scan fails with
`errAllFoldersFullOrUsed`, and for every `retryTimes ≥ 1`
`selectFolderToAddWithRetry` returns that failure only after running
all its scans.  (As stated the claim also covered `retryTimes = 0`,
where the code instead returns a `nil` error without scanning — see the
counterexample.) -/
theorem selectFolder_spec :
    (∀ sfs : FolderMap,
      (∀ p ∈ sfs, p.2.lockedByOther = true ∨ p.2.status = folderUnavailable ∨
        freeSectorIndex p.2 = none) →
      selectFolderToAdd sfs = .error errAllFoldersFullOrUsed ∧
      ∀ n : Nat, 1 ≤ n →
        selectFolderToAddWithRetry sfs n =
          (none, some errAllFoldersFullOrUsed)) ∧
    (∀ (pre : FolderMap) (q : String × StorageFolder) (rest : FolderMap)
        (idx : Nat),
      (∀ p ∈ pre, p.2.lockedByOther = true ∨ p.2.status = folderUnavailable ∨
        freeSectorIndex p.2 = none) →
      q.2.lockedByOther = false →
      ¬q.2.status = folderUnavailable →
      freeSectorIndex q.2 = some idx →
      selectFolderToAdd (pre ++ q :: rest) = .ok (q.2, idx)) := by
  constructor
  · intro sfs hall
    have hscan := selectFolderToAdd_all_skipped sfs hall
    refine ⟨hscan, ?_⟩
    intro n hn
    obtain ⟨m, rfl⟩ : ∃ m, n = m + 1 := ⟨n - 1, by omega⟩
    exact selectRetryAux_all_skipped sfs hscan m none
  · intro pre
    induction pre with
    | nil =>
      intro q rest idx _ hlk hst hfree
      obtain ⟨k, sf⟩ := q
      have hlk' : sf.lockedByOther = false := hlk
      have hst' : ¬sf.status = folderUnavailable := hst
      have hfree' : freeSectorIndex sf = some idx := hfree
      simp [selectFolderToAdd, hlk', hst', hfree']
    | cons p pre ih =>
      intro q rest idx hall hlk hst hfree
      have hp := hall p (List.mem_cons_self _ _)
      have hpre := fun r hr => hall r (List.mem_cons_of_mem _ hr)
      have htail := ih q rest idx hpre hlk hst hfree
      obtain ⟨k, sf⟩ := p
      have hp' : sf.lockedByOther = true ∨ sf.status = folderUnavailable ∨
          freeSectorIndex sf = none := hp
      rcases hp' with h1 | h2 | h3
      · simpa [selectFolderToAdd, h1] using htail
      · cases hlk2 : sf.lockedByOther
        · simpa [selectFolderToAdd, hlk2, h2] using htail
        · simpa [selectFolderToAdd, hlk2] using htail
      · cases hlk2 : sf.lockedByOther
        · by_cases hst2 : sf.status = folderUnavailable
          · simpa [selectFolderToAdd, hlk2, hst2] using htail
          · simpa [selectFolderToAdd, hlk2, hst2, h3] using htail
        · simpa [selectFolderToAdd, hlk2] using htail

/-- Witness for C6 (amended): one full folder alone makes a scan and two
retries fail with `errAllFoldersFullOrUsed`; prefixing that full folder
to an available folder with free slot 0 selects the latter. -/
theorem selectFolder_spec_witness :
    (selectFolderToAdd [("/b", { path := "/b", usage := [true] })] =
        .error errAllFoldersFullOrUsed ∧
      selectFolderToAddWithRetry [("/b", { path := "/b", usage := [true] })] 2 =
        (none, some errAllFoldersFullOrUsed)) ∧
    selectFolderToAdd
        [("/b", { path := "/b", usage := [true] }),
          ("/g", { path := "/g", usage := [false, true] })] =
      .ok ({ path := "/g", usage := [false, true] }, 0) := by
  refine ⟨⟨(selectFolder_spec.1 [("/b", { path := "/b", usage := [true] })]
      (by decide)).1,
    (selectFolder_spec.1 [("/b", { path := "/b", usage := [true] })]
      (by decide)).2 2 (by decide)⟩,
    selectFolder_spec.2 [("/b", { path := "/b", usage := [true] })]
      ("/g", { path := "/g", usage := [false, true] }) [] 0
      (by decide) (by decide) (by decide) (by decide)⟩

/-! ## Claim theorems: DeleteFolder and validateShrink -/

/-- Filtering out a key makes its lookup fail. -/
theorem lookup_filter_ne (l : List (String × StorageFolder)) (k : String) :
    (l.filter (fun p => decide (p.1 ≠ k))).lookup k = none := by
  induction l with
  | nil => rfl
  | cons p l ih =>
    obtain ⟨k', v⟩ := p
    simp only [List.filter_cons]
    by_cases hk : k' = k
    · have hd : (decide ((k', v).1 ≠ k)) = false := by simp [hk]
      rw [hd]
      simp only [Bool.false_eq_true, if_false]
      exact ih
    · have hd : (decide ((k', v).1 ≠ k)) = true := by simp [hk]
      rw [hd]
      simp only [if_true]
      rw [List.lookup_cons]
      have hbeq : (k == k') = false := beq_eq_false_iff_ne.mpr (Ne.symm hk)
      rw [hbeq]
      exact ih

/-- Filtering out an element removes it. -/
theorem not_mem_filter_ne (l : List String) (k : String) :
    k ∉ l.filter (fun q => decide (q ≠ k)) := by
  intro h
  rw [List.mem_filter] at h
  simpa using h.2

/-- A folder with no stored sector has nothing to evacuate. -/
theorem slotsToEvacuate_nil (sf : StorageFolder) (target : Nat)
    (h : sf.storedSectors = 0) : slotsToEvacuate sf target = [] := by
  rw [slotsToEvacuate, List.filter_eq_nil_iff]
  intro i _
  have hnot : true ∉ sf.usage := List.count_eq_zero.mp h
  have husage : sf.usage[i]?.getD false = false := by
    cases hq : sf.usage[i]? with
    | none => rfl
    | some b =>
      have hb : b ∈ sf.usage := List.getElem?_mem hq
      cases b with
      | false => rfl
      | true => exact absurd hb hnot
  simp [List.getD_eq_getElem?_getD, husage]

/-- C7: for every registered folder with zero occupied sectors (and a
positive capacity, as every registered folder has), `DeleteFolder`
evacuates nothing — the ghost list of moved sectors is empty — and still
destroys the folder: it disappears from the in-memory registry, its
record is deleted from the metadata store, and its backing data file is
closed and removed from disk. -/
theorem deleteFolder_empty (st : SMState) (folderPath : String)
    (sf : StorageFolder)
    (hlk : st.folders.lookup folderPath = some sf)
    (hstored : sf.storedSectors = 0)
    (hcap : 0 < sf.numSectors) :
    ∃ st', deleteFolder st folderPath = .ok (st', []) ∧
      st'.folders.lookup folderPath = none ∧
      folderPath ∉ st'.dbFolders ∧
      folderPath ∉ st'.openFiles ∧
      folderPath ∉ st'.diskFiles := by
  have hns : ¬sf.numSectors = 0 := Nat.pos_iff_ne_zero.mp hcap
  have hvs : validateShrink st.folders folderPath 0 = none := by
    rw [validateShrink]
    simp [hlk, hstored]
  have hmoved := slotsToEvacuate_nil sf 0 hstored
  have hst1 : shrinkFolder st folderPath 0 =
      .ok
        ({ folders := st.folders.map
            (fun p => if p.1 = folderPath
              then (folderPath, { sf with usage := sf.usage.take 0 }) else p)
           dbFolders := st.dbFolders
           openFiles := st.openFiles
           diskFiles := st.diskFiles }, []) := by
    simp only [shrinkFolder, hlk, hvs, hmoved]
  refine
    ⟨{ folders := (st.folders.map
          (fun p => if p.1 = folderPath
            then (folderPath, { sf with usage := sf.usage.take 0 }) else p)).filter
            (fun p => decide (p.1 ≠ folderPath))
       dbFolders := st.dbFolders.filter (fun q => decide (q ≠ folderPath))
       openFiles := st.openFiles.filter (fun q => decide (q ≠ folderPath))
       diskFiles := st.diskFiles.filter (fun q => decide (q ≠ folderPath)) },
      ?_, lookup_filter_ne _ _, not_mem_filter_ne _ _, not_mem_filter_ne _ _,
      not_mem_filter_ne _ _⟩
  simp only [deleteFolder, hlk]
  rw [if_neg hns]
  simp only [hst1]

/-- Witness for C7: a one-folder registry whose folder has capacity 1
and no stored sector; deleting it moves nothing and erases the folder
everywhere. -/
theorem deleteFolder_empty_witness :
    ∃ st', deleteFolder
        { folders := [("/a", { path := "/a", usage := [false] })]
          dbFolders := ["/a"], openFiles := ["/a"], diskFiles := ["/a"] }
        "/a" = .ok (st', []) ∧
      st'.folders.lookup "/a" = none ∧
      "/a" ∉ st'.dbFolders ∧
      "/a" ∉ st'.openFiles ∧
      "/a" ∉ st'.diskFiles :=
  deleteFolder_empty
    { folders := [("/a", { path := "/a", usage := [false] })]
      dbFolders := ["/a"], openFiles := ["/a"], diskFiles := ["/a"] }
    "/a" { path := "/a", usage := [false] } (by decide) (by decide) (by decide)

/-- `uint64` subtraction is exact when no wrap occurs. -/
theorem subU64_eq (a b : Nat) (hb : b ≤ a) (ha : a < u64Mod) :
    subU64 a b = a - b := by
  rw [subU64, Nat.mod_eq_of_lt (Nat.lt_of_le_of_lt hb ha)]
  have hbM : b ≤ u64Mod := Nat.le_of_lt (Nat.lt_of_le_of_lt hb ha)
  have h1 : a + (u64Mod - b) = u64Mod + (a - b) := by omega
  rw [h1, Nat.add_mod_left]
  exact Nat.mod_eq_of_lt (by omega)

/-- The `validateShrink` accumulation loop computes the exact free-space
sum of the other folders, modulo `2 ^ 64`. -/
theorem foldl_addU64_skip (path : String) :
    ∀ (sfs : FolderMap) (acc : Nat), acc < u64Mod →
      (∀ p ∈ sfs, p.2.numSectors ≤ maxSectorsPerFolder) →
      sfs.foldl (fun acc p => if p.1 = path then acc
        else addU64 acc (subU64 p.2.numSectors p.2.storedSectors)) acc =
      (acc + ((sfs.filter (fun p => decide (p.1 ≠ path))).map
        (fun p => p.2.numSectors - p.2.storedSectors)).sum) % u64Mod := by
  intro sfs
  induction sfs with
  | nil =>
    intro acc hacc _
    simp [Nat.mod_eq_of_lt hacc]
  | cons p rest ih =>
    intro acc hacc hb
    have hrest : ∀ q ∈ rest, q.2.numSectors ≤ maxSectorsPerFolder :=
      fun q hq => hb q (List.mem_cons_of_mem _ hq)
    by_cases hp : p.1 = path
    · have hd : (decide (p.1 ≠ path)) = false := by simp [hp]
      rw [List.foldl_cons, if_pos hp, List.filter_cons, hd]
      simp only [Bool.false_eq_true, if_false]
      exact ih acc hacc hrest
    · have hd : (decide (p.1 ≠ path)) = true := by simp [hp]
      have hnum : p.2.numSectors ≤ maxSectorsPerFolder :=
        hb p (List.mem_cons_self _ _)
      have hst : p.2.storedSectors ≤ p.2.numSectors :=
        List.count_le_length _ _
      have hMlt : maxSectorsPerFolder < u64Mod := by
        rw [maxSectorsPerFolder, u64Mod]
        norm_num
      have hlt : p.2.numSectors < u64Mod := Nat.lt_of_le_of_lt hnum hMlt
      have hsub : subU64 p.2.numSectors p.2.storedSectors =
          p.2.numSectors - p.2.storedSectors := subU64_eq _ _ hst hlt
      have hM : 0 < u64Mod := by rw [u64Mod]; norm_num
      have haddlt : addU64 acc (subU64 p.2.numSectors p.2.storedSectors) <
          u64Mod := Nat.mod_lt _ hM
      rw [List.foldl_cons, if_neg hp, List.filter_cons, hd]
      simp only [if_true]
      rw [ih _ haddlt hrest, List.map_cons, List.sum_cons, hsub, addU64,
        Nat.mod_add_mod]
      have harr : acc + (p.2.numSectors - p.2.storedSectors) +
          ((rest.filter (fun p => decide (p.1 ≠ path))).map
            (fun p => p.2.numSectors - p.2.storedSectors)).sum =
          acc + ((p.2.numSectors - p.2.storedSectors) +
          ((rest.filter (fun p => decide (p.1 ≠ path))).map
            (fun p => p.2.numSectors - p.2.storedSectors)).sum) := by
        omega
      rw [harr]

/-- C8: `validateShrink` succeeds exactly when the aggregate free
capacity of all *other* registered folders plus the shrink target is at
least the stored-sector count of the folder being shrunk; when it is
not, it returns the `not enough storage space for shrink` error, and a
failing validation makes `shrinkFolder` abort with that error, producing
no new state.  The bounds assumed are the data-model invariants: every
folder capacity is at most `maxSectorsPerFolder` and the registry holds
at most `maxNumFolders` folders, which keep the `uint64` arithmetic
exact. -/
theorem validateShrink_iff (sfs : FolderMap) (folderPath : String)
    (target : Nat) (sf : StorageFolder)
    (hlk : sfs.lookup folderPath = some sf)
    (hb : ∀ p ∈ sfs, p.2.numSectors ≤ maxSectorsPerFolder)
    (hn : sfs.length ≤ maxNumFolders)
    (ht : target ≤ maxSectorsPerFolder) :
    (validateShrink sfs folderPath target = none ↔
      sf.storedSectors ≤
        ((sfs.filter (fun p => decide (p.1 ≠ folderPath))).map
          (fun p => p.2.numSectors - p.2.storedSectors)).sum + target) ∧
    (validateShrink sfs folderPath target =
        some "not enough storage space for shrink" ↔
      ¬sf.storedSectors ≤
        ((sfs.filter (fun p => decide (p.1 ≠ folderPath))).map
          (fun p => p.2.numSectors - p.2.storedSectors)).sum + target) ∧
    (∀ (st : SMState) (e : String), st.folders = sfs →
      validateShrink sfs folderPath target = some e →
      shrinkFolder st folderPath target = .error e) := by
  have hSle : ((sfs.filter (fun p => decide (p.1 ≠ folderPath))).map
      (fun p => p.2.numSectors - p.2.storedSectors)).sum ≤
      sfs.length * maxSectorsPerFolder := by
    have h1 := List.sum_le_card_nsmul
      ((sfs.filter (fun p => decide (p.1 ≠ folderPath))).map
        (fun p => p.2.numSectors - p.2.storedSectors)) maxSectorsPerFolder ?_
    · rw [List.length_map, smul_eq_mul] at h1
      exact Nat.le_trans h1
        (Nat.mul_le_mul_right _ (List.length_filter_le _ _))
    · intro x hx
      rw [List.mem_map] at hx
      obtain ⟨p, hp, rfl⟩ := hx
      exact Nat.le_trans (Nat.sub_le _ _) (hb p (List.mem_of_mem_filter hp))
  have hbig : maxNumFolders * maxSectorsPerFolder + maxSectorsPerFolder <
      u64Mod := by
    rw [maxNumFolders, maxSectorsPerFolder, u64Mod]
    norm_num
  have hle2 : sfs.length * maxSectorsPerFolder ≤
      maxNumFolders * maxSectorsPerFolder :=
    Nat.mul_le_mul_right _ hn
  have hS2 : ((sfs.filter (fun p => decide (p.1 ≠ folderPath))).map
      (fun p => p.2.numSectors - p.2.storedSectors)).sum + target < u64Mod := by
    omega
  have hM : 0 < u64Mod := by rw [u64Mod]; norm_num
  have hchar : validateShrink sfs folderPath target =
      (if ((sfs.filter (fun p => decide (p.1 ≠ folderPath))).map
          (fun p => p.2.numSectors - p.2.storedSectors)).sum + target <
          sf.storedSectors
        then some "not enough storage space for shrink" else none) := by
    rw [validateShrink]
    rw [foldl_addU64_skip folderPath sfs 0 hM hb]
    rw [Nat.zero_add]
    rw [Nat.mod_eq_of_lt (by omega), addU64,
      Nat.mod_eq_of_lt hS2, hlk]
    rfl
  refine ⟨?_, ?_, ?_⟩
  · rw [hchar]
    by_cases hcond : ((sfs.filter (fun p => decide (p.1 ≠ folderPath))).map
        (fun p => p.2.numSectors - p.2.storedSectors)).sum + target <
        sf.storedSectors
    · rw [if_pos hcond]
      constructor
      · intro h; exact absurd h (by simp)
      · intro h; omega
    · rw [if_neg hcond]
      constructor
      · intro _; omega
      · intro _; rfl
  · rw [hchar]
    by_cases hcond : ((sfs.filter (fun p => decide (p.1 ≠ folderPath))).map
        (fun p => p.2.numSectors - p.2.storedSectors)).sum + target <
        sf.storedSectors
    · rw [if_pos hcond]
      constructor
      · intro _; omega
      · intro _; rfl
    · rw [if_neg hcond]
      constructor
      · intro h; exact absurd h (by simp)
      · intro h; omega
  · intro st e hst hval
    rw [shrinkFolder]
    simp only [hst, hlk, hval]

/-- Witness for C8: a registry of two folders, shrinking `/a` (1 of 2
slots used) to one sector; the other folder has 2 free slots, so
validation succeeds, matching the inequality `1 ≤ 2 + 1`. -/
theorem validateShrink_iff_witness :
    (validateShrink
        ([("/a", { path := "/a", usage := [true, false] }),
          ("/b", { path := "/b", usage := [false, false] })] : FolderMap)
        "/a" 1 = none ↔
      ({ path := "/a", usage := [true, false] } : StorageFolder).storedSectors ≤
        ((([("/a", { path := "/a", usage := [true, false] }),
            ("/b", { path := "/b", usage := [false, false] })] : FolderMap).filter
          (fun p => decide (p.1 ≠ "/a"))).map
          (fun p => p.2.numSectors - p.2.storedSectors)).sum + 1) ∧
    (validateShrink
        ([("/a", { path := "/a", usage := [true, false] }),
          ("/b", { path := "/b", usage := [false, false] })] : FolderMap)
        "/a" 1 = some "not enough storage space for shrink" ↔
      ¬({ path := "/a", usage := [true, false] } : StorageFolder).storedSectors ≤
        ((([("/a", { path := "/a", usage := [true, false] }),
            ("/b", { path := "/b", usage := [false, false] })] : FolderMap).filter
          (fun p => decide (p.1 ≠ "/a"))).map
          (fun p => p.2.numSectors - p.2.storedSectors)).sum + 1) ∧
    (∀ (st : SMState) (e : String),
      st.folders = ([("/a", { path := "/a", usage := [true, false] }),
        ("/b", { path := "/b", usage := [false, false] })] : FolderMap) →
      validateShrink
        ([("/a", { path := "/a", usage := [true, false] }),
          ("/b", { path := "/b", usage := [false, false] })] : FolderMap)
        "/a" 1 = some e →
      shrinkFolder st "/a" 1 = .error e) :=
  validateShrink_iff
    ([("/a", { path := "/a", usage := [true, false] }),
      ("/b", { path := "/b", usage := [false, false] })] : FolderMap) "/a" 1
    { path := "/a", usage := [true, false] }
    (by decide) (by decide) (by decide) (by decide)

/-- C10: `newMerkleRootPreview` computes the hypothetical root without
mutating any stored state: the cached subtrees, the overflow list, the
tracked count and the stored db roots are all unchanged, and the whole
state is returned as it was. -/
theorem newMerkleRootPreview_pure {α : Type} [Inhabited α]
    (join : α → α → α) (mr : MerkleRoots α) (newRoot : α) :
    (newMerkleRootPreview join mr newRoot).2.cachedSubTrees = mr.cachedSubTrees ∧
    (newMerkleRootPreview join mr newRoot).2.uncachedRoots = mr.uncachedRoots ∧
    (newMerkleRootPreview join mr newRoot).2.numMerkleRoots = mr.numMerkleRoots ∧
    (newMerkleRootPreview join mr newRoot).2.db = mr.db ∧
    (newMerkleRootPreview join mr newRoot).2 = mr :=
  ⟨rfl, rfl, rfl, rfl, rfl⟩

end Godx
